import Mathlib

/-!
Shallow embedding of `push/args.py`: the custom argparse actions
(`SetAddConst`, `DictAddConstKey`, `AppendHostOrAlias`, `DeployCommand`,
`KillCommand`, `StoreIfHost`) and the `parse_args` entry point, together
with theorems settling the specification claims about them.

A parsed command line is modelled as the list of flag events argparse
delivers to the actions, in command-line order; the argparse-level checks
the source relies on (`required=True` for `-h`, the mutually exclusive
group for `--startat`/`--shuffle`, `choices=["all", "apps"]` for `-k`)
are part of the model, in the order argparse applies them.
-/

namespace Push

/-- Python `str.split(" ")` on the character list of a token: pieces cut at
every single space, empty pieces kept. `cur` is the reversed accumulator of
the piece currently being read. -/
def splitChars : List Char → List Char → List (List Char)
  | cur, [] => [cur.reverse]
  | cur, c :: cs =>
    if c = ' ' then cur.reverse :: splitChars [] cs else splitChars (c :: cur) cs

/-- The whitespace characters Python `str.strip()` removes. -/
def isPySpace (c : Char) : Bool :=
  c = ' ' || c = '\t' || c = '\n' || c = '\r' || c = '\x0b' || c = '\x0c'

/-- Python `str.strip()`: drop leading and trailing whitespace characters. -/
def pyStrip (l : List Char) : List Char :=
  ((l.dropWhile isPySpace).reverse.dropWhile isPySpace).reverse

/-- The generator `x.strip() for x in host_or_alias.split(" ")` that
`AppendHostOrAlias.__call__` feeds to `queue.extend`. -/
def splitHostToken (s : String) : List String :=
  (splitChars [] s.toList).map (fun p => String.mk (pyStrip p))

/-- Python `" " in host_or_alias`: the token holds an internal space. -/
def hasSpace (s : String) : Bool := s.toList.contains ' '

/-- The failures `parse_args` can raise: the `argparse.ArgumentError`s thrown
by the custom actions, and the argparse-level checks the source configures
(choices on `-k`, the mutually exclusive group, `required=True` on `-h`). -/
inductive ParseError where
  | unknownHostOrAlias (token : String)
  | unknownHost (value : Option String)
  | invalidChoice (value : String)
  | mutuallyExclusive
  | missingHosts
  deriving DecidableEq, Repr

/-- Python dict lookup on the alias map (`host_or_alias in self.aliases`,
`self.aliases[host_or_alias]`), the map modelled as an association list. -/
def lookupAlias : List (String × List String) → String → Option (List String)
  | [], _ => none
  | (a, hs) :: rest, t => if a = t then some hs else lookupAlias rest t

/-- The `while queue:` loop of `AppendHostOrAlias.__call__`: pop the front
token; a token with an internal space is split and the stripped pieces are
handed to `queue.extend` (which appends them at the BACK of the deque);
otherwise the token is appended to the host list if it is a known host, the
alias contents are appended if it is a known alias, and anything else raises
`ArgumentError("unknown host or alias ...")`. `acc` is the host list being
mutated. -/
def resolveLoop (H : List String) (A : List (String × List String)) :
    List String → List String → Except ParseError (List String)
  | acc, [] => .ok acc
  | acc, t :: q =>
    if hsp : hasSpace t then
      resolveLoop H A acc (q ++ splitHostToken t)
    else if t ∈ H then
      resolveLoop H A (acc ++ [t]) q
    else
      match lookupAlias A t with
      | some hs => resolveLoop H A (acc ++ hs) q
      | none => .error (.unknownHostOrAlias t)
termination_by acc q => (q.countP hasSpace, q.length)
decreasing_by
  · have aux : ∀ (l cur : List Char), ' ' ∉ cur →
        ∀ r ∈ splitChars cur l, ' ' ∉ r := by
      intro l
      induction l with
      | nil =>
        intro cur hcur r hr
        simp only [splitChars, List.mem_singleton] at hr
        subst hr
        simpa using hcur
      | cons c cs ih =>
        intro cur hcur r hr
        simp only [splitChars] at hr
        by_cases hc : c = ' '
        · rw [if_pos hc] at hr
          rcases List.mem_cons.mp hr with h1 | h2
          · subst h1; simpa using hcur
          · exact ih [] (by simp) r h2
        · rw [if_neg hc] at hr
          refine ih (c :: cur) ?_ r hr
          intro hmem
          rcases List.mem_cons.mp hmem with h1 | h2
          · exact hc h1.symm
          · exact hcur h2
    have key : (splitHostToken t).countP hasSpace = 0 := by
      rw [List.countP_eq_zero]
      intro p hp
      simp only [splitHostToken, List.mem_map] at hp
      obtain ⟨piece, hpiece, rfl⟩ := hp
      have hnp : ' ' ∉ piece := aux _ [] (by simp) piece hpiece
      have hstrip : ' ' ∉ pyStrip piece := by
        intro hmem
        apply hnp
        simp only [pyStrip, List.mem_reverse] at hmem
        exact (List.dropWhile_sublist _).subset
          (List.mem_reverse.mp ((List.dropWhile_sublist _).subset hmem))
      simp only [hasSpace]
      intro hcon
      exact hstrip (by simpa [String.toList] using hcon)
    simp only [invImage, InvImage, Prod.lex_iff]
    left
    simp only [List.countP_append, List.countP_cons, key, hsp]
    simp only [if_true]
    omega
  · simp only [invImage, InvImage, Prod.lex_iff]
    have : List.countP hasSpace (t :: q) = List.countP hasSpace q := by
      simp [List.countP_cons, hsp]
    rw [this]
    right
    exact ⟨rfl, by simp⟩
  · simp only [invImage, InvImage, Prod.lex_iff]
    have : List.countP hasSpace (t :: q) = List.countP hasSpace q := by
      simp [List.countP_cons, hsp]
    rw [this]
    right
    exact ⟨rfl, by simp⟩

/-- The `const` of a `SetAddConst` flag. `SetAddConst.__call__` branches on
Python 2's `hasattr(self.const, "__iter__")`, which is true for the list
constants (`-pc`, `-dc`) and false for the string constants, so a list is
added element by element and a string is added whole. -/
inductive SetConst where
  | str (s : String)
  | list (l : List String)
  deriving DecidableEq

/-- `SetAddConst.__call__`: add the constant (or each of its elements) to the
set backing the destination field. -/
def setAddConst (s : Finset String) : SetConst → Finset String
  | .str x => insert x s
  | .list xs => xs.foldl (fun acc x => insert x acc) s

/-- `DictAddConstKey.__call__`: `d[self.const] = value` on an
insertion-ordered dict modelled as an association list (Python overwrites the
value in place when the key exists). -/
def dictAddConstKey (d : List (String × String)) (key value : String) :
    List (String × String) :=
  if d.any (fun p => p.1 = key) then
    d.map (fun p => if p.1 = key then (key, value) else p)
  else d ++ [(key, value)]

/-- `DeployCommand.__call__`: the value is appended to the command list,
prefixed with `restart-` exactly when it is `all` or `apps`
(`value in ("all", "apps")`). -/
def deployCommandCall (cmds : List String) (value : String) : List String :=
  let pfx := if value = "all" ∨ value = "apps" then "restart-" else ""
  cmds ++ [pfx ++ value]

/-- `KillCommand.__call__`: the value is always appended prefixed with
`kill-`. -/
def killCommandCall (cmds : List String) (value : String) : List String :=
  cmds ++ ["kill-" ++ value]

/-- The membership test `value not in self.all_hosts` of
`StoreIfHost.__call__`, negated. When `--startat` is given with no argument,
argparse stores `None` as the value; Python's `None` is equal to no string,
so it is never a member of the host list read from the hosts file. -/
def optMemHosts (v : Option String) (H : List String) : Bool :=
  match v with
  | some s => H.contains s
  | none => false

/-- The namespace `parse_args` fills in, with the defaults the
`add_argument` calls configure: `store_true` flags default to false,
`store_false` flags to true, `sleeptime` to 5, the accumulator fields to
empty containers. -/
structure PushNamespace where
  hosts : List String := []
  sleeptime : Option Int := some 5
  testing : Bool := false
  quiet : Bool := false
  notify_irc : Bool := true
  build_static : Bool := true
  auto_continue : Bool := false
  start_at : Option String := none
  shuffle : Bool := false
  fetches : Finset String := ∅
  deploys : Finset String := ∅
  revisions : List (String × String) := []
  deploy_commands : List String := []
  deriving DecidableEq

/-- One flag occurrence as argparse delivers it to its action, carrying the
already-tokenised argument values: `-h` carries its `nargs="+"` token list,
`--startat` its optional value (`none` when the bare flag is given),
`--sleeptime` its optional integer, `-r`/`-k` and the revision flags their
single argument. -/
inductive Flag where
  | h (values : List String)
  | sleeptime (value : Option Int)
  | t
  | q
  | noIrc
  | noStatic
  | noInput
  | startat (value : Option String)
  | shuffle
  | pc
  | ppu
  | ppr
  | pla
  | dc
  | dpu
  | dpr
  | dla
  | publicrev (ref : String)
  | privaterev (ref : String)
  | langrev (ref : String)
  | r (command : String)
  | k (value : String)
  deriving DecidableEq

/-- Parsing state: the namespace being mutated plus argparse's record of
which members of the `--startat`/`--shuffle` mutually exclusive group have
been seen (argparse raises the conflict when the second member arrives,
before running its action). -/
structure ParseState where
  ns : PushNamespace := {}
  sawStartat : Bool := false
  sawShuffle : Bool := false
  deriving DecidableEq

/-- Dispatch of one flag occurrence: the argparse-level checks that run when
the option is consumed (mutually-exclusive conflict, `choices` on `-k`),
then the configured action. Mirrors the `add_argument` calls of
`parse_args` and the `__call__` bodies of the custom actions. -/
def applyFlag (H : List String) (A : List (String × List String))
    (st : ParseState) : Flag → Except ParseError ParseState
  | .h values => do
    let hs ← resolveLoop H A st.ns.hosts values
    pure { st with ns := { st.ns with hosts := hs } }
  | .sleeptime value => pure { st with ns := { st.ns with sleeptime := value } }
  | .t => pure { st with ns := { st.ns with testing := true } }
  | .q => pure { st with ns := { st.ns with quiet := true } }
  | .noIrc => pure { st with ns := { st.ns with notify_irc := false } }
  | .noStatic => pure { st with ns := { st.ns with build_static := false } }
  | .noInput => pure { st with ns := { st.ns with auto_continue := true } }
  | .startat value =>
    if st.sawShuffle then .error .mutuallyExclusive
    else if optMemHosts value H then
      pure { st with ns := { st.ns with start_at := value }, sawStartat := true }
    else .error (.unknownHost value)
  | .shuffle =>
    if st.sawStartat then .error .mutuallyExclusive
    else pure { st with ns := { st.ns with shuffle := true }, sawShuffle := true }
  | .pc => pure { st with ns :=
      { st.ns with fetches := setAddConst st.ns.fetches (.list ["public", "private"]) } }
  | .ppu => pure { st with ns :=
      { st.ns with fetches := setAddConst st.ns.fetches (.str "public") } }
  | .ppr => pure { st with ns :=
      { st.ns with fetches := setAddConst st.ns.fetches (.str "private") } }
  | .pla => pure { st with ns :=
      { st.ns with fetches := setAddConst st.ns.fetches (.str "i18n") } }
  | .dc => pure { st with ns :=
      { st.ns with deploys := setAddConst st.ns.deploys (.list ["public", "private"]) } }
  | .dpu => pure { st with ns :=
      { st.ns with deploys := setAddConst st.ns.deploys (.str "public") } }
  | .dpr => pure { st with ns :=
      { st.ns with deploys := setAddConst st.ns.deploys (.str "private") } }
  | .dla => pure { st with ns :=
      { st.ns with deploys := setAddConst st.ns.deploys (.str "i18n") } }
  | .publicrev ref => pure { st with ns :=
      { st.ns with revisions := dictAddConstKey st.ns.revisions "public" ref } }
  | .privaterev ref => pure { st with ns :=
      { st.ns with revisions := dictAddConstKey st.ns.revisions "private" ref } }
  | .langrev ref => pure { st with ns :=
      { st.ns with revisions := dictAddConstKey st.ns.revisions "i18n" ref } }
  | .r command => pure { st with ns :=
      { st.ns with deploy_commands := deployCommandCall st.ns.deploy_commands command } }
  | .k value =>
    if value = "all" ∨ value = "apps" then
      pure { st with ns :=
        { st.ns with deploy_commands := killCommandCall st.ns.deploy_commands value } }
    else .error (.invalidChoice value)

/-- Whether a flag occurrence is the required `-h` option. -/
def isHostFlag : Flag → Bool
  | .h _ => true
  | _ => false

/-- The `parse_args` entry point: fold the actions over the flag occurrences
in command-line order, enforce `required=True` on `-h` (argparse checks this
after consuming all arguments), then the post-processing rule
`if args.quiet: args.auto_continue = True`. -/
def parse_args (H : List String) (A : List (String × List String))
    (flags : List Flag) : Except ParseError PushNamespace := do
  let st ← flags.foldlM (applyFlag H A) {}
  if flags.any isHostFlag then
    pure (if st.ns.quiet then { st.ns with auto_continue := true } else st.ns)
  else
    .error .missingHosts

/-! Step equations of the resolver loop, one per branch of the source's
`while queue:` body. -/

theorem resolveLoop_nil (H : List String) (A : List (String × List String))
    (acc : List String) : resolveLoop H A acc [] = .ok acc := by
  simp [resolveLoop]

theorem resolveLoop_space (H : List String) (A : List (String × List String))
    (acc : List String) (t : String) (q : List String)
    (hsp : hasSpace t = true) :
    resolveLoop H A acc (t :: q) = resolveLoop H A acc (q ++ splitHostToken t) := by
  rw [resolveLoop]
  simp [hsp]

theorem resolveLoop_host (H : List String) (A : List (String × List String))
    (acc : List String) (t : String) (q : List String)
    (hsp : hasSpace t = false) (ht : t ∈ H) :
    resolveLoop H A acc (t :: q) = resolveLoop H A (acc ++ [t]) q := by
  rw [resolveLoop]
  simp [hsp, ht]

theorem resolveLoop_alias (H : List String) (A : List (String × List String))
    (acc : List String) (t : String) (q : List String) (hs : List String)
    (hsp : hasSpace t = false) (ht : t ∉ H) (ha : lookupAlias A t = some hs) :
    resolveLoop H A acc (t :: q) = resolveLoop H A (acc ++ hs) q := by
  rw [resolveLoop]
  simp [hsp, ht, ha]

theorem resolveLoop_unknown (H : List String) (A : List (String × List String))
    (acc : List String) (t : String) (q : List String)
    (hsp : hasSpace t = false) (ht : t ∉ H) (ha : lookupAlias A t = none) :
    resolveLoop H A acc (t :: q) = .error (.unknownHostOrAlias t) := by
  rw [resolveLoop]
  simp [hsp, ht, ha]

/-- A successful alias-map lookup returns a value stored in the map. -/
theorem lookupAlias_mem (A : List (String × List String)) (t : String)
    (hs : List String) (h : lookupAlias A t = some hs) : (t, hs) ∈ A := by
  induction A with
  | nil => simp [lookupAlias] at h
  | cons p rest ih =>
    obtain ⟨a, v⟩ := p
    by_cases hat : a = t
    · subst hat
      simp [lookupAlias] at h
      simp [h]
    · rw [lookupAlias, if_neg hat] at h
      exact List.mem_cons_of_mem _ (ih h)

/-- When every queued token is a known, space-free host, the loop appends the
tokens to the host list unchanged and in order. -/
theorem resolveLoop_known (H : List String) (A : List (String × List String))
    (ts : List String) :
    ∀ acc, (∀ t ∈ ts, t ∈ H ∧ hasSpace t = false) →
      resolveLoop H A acc ts = .ok (acc ++ ts) := by
  induction ts with
  | nil => intro acc _; simp [resolveLoop_nil]
  | cons t ts ih =>
    intro acc hts
    obtain ⟨htH, htsp⟩ := hts t (List.mem_cons_self t ts)
    rw [resolveLoop_host H A acc t ts htsp htH,
      ih (acc ++ [t]) (fun u hu => hts u (List.mem_cons_of_mem t hu))]
    simp

/-- Every host the loop emits is a known host or an element of one of the
alias map's expansion lists: the loop checks tokens, never the contents of
an alias. -/
theorem resolveLoop_origin (H : List String) (A : List (String × List String)) :
    ∀ (acc q out : List String), resolveLoop H A acc q = .ok out →
      (∀ x ∈ acc, x ∈ H ∨ ∃ p ∈ A, x ∈ p.2) →
      ∀ x ∈ out, x ∈ H ∨ ∃ p ∈ A, x ∈ p.2 := by
  intro acc q
  induction acc, q using resolveLoop.induct H A with
  | case1 acc =>
    intro out hout hacc
    rw [resolveLoop_nil] at hout
    cases hout
    exact hacc
  | case2 acc t q hsp ih =>
    intro out hout hacc
    rw [resolveLoop_space H A acc t q (by simpa using hsp)] at hout
    exact ih out hout hacc
  | case3 acc t q hsp ht ih =>
    intro out hout hacc
    rw [resolveLoop_host H A acc t q (by simpa using hsp) ht] at hout
    refine ih out hout ?_
    intro x hx
    rcases List.mem_append.mp hx with hx | hx
    · exact hacc x hx
    · rw [List.mem_singleton] at hx
      subst hx
      exact Or.inl ht
  | case4 acc t q hsp ht hs ha ih =>
    intro out hout hacc
    rw [resolveLoop_alias H A acc t q hs (by simpa using hsp) ht ha] at hout
    refine ih out hout ?_
    intro x hx
    rcases List.mem_append.mp hx with hx | hx
    · exact hacc x hx
    · exact Or.inr ⟨(t, hs), lookupAlias_mem A t hs ha, hx⟩
  | case5 acc t q hsp ht ha =>
    intro out hout hacc
    rw [resolveLoop_unknown H A acc t q (by simpa using hsp) ht ha] at hout
    cases hout

/-! Lemmas about one action dispatch and about the fold over the whole
command line. -/

theorem applyFlag_sawShuffle_mono (H : List String) (A : List (String × List String))
    (st : ParseState) (f : Flag) (st' : ParseState)
    (h : applyFlag H A st f = .ok st') (hsw : st.sawShuffle = true) :
    st'.sawShuffle = true := by
  cases f <;> simp only [applyFlag] at h
  case h values =>
    cases hr : resolveLoop H A st.ns.hosts values with
    | error e => simp [hr, Bind.bind, Except.bind] at h
    | ok hs =>
      simp only [hr, Bind.bind, Except.bind, pure, Except.pure, Except.ok.injEq] at h
      subst h
      exact hsw
  case startat value =>
    rw [hsw] at h
    simp at h
  all_goals first
  | (simp only [Except.ok.injEq, pure, Except.pure] at h; subst h; exact hsw)
  | (split at h <;> simp_all [pure, Except.pure] <;> (try subst h) <;> simp_all)

theorem applyFlag_sawStartat_mono (H : List String) (A : List (String × List String))
    (st : ParseState) (f : Flag) (st' : ParseState)
    (h : applyFlag H A st f = .ok st') (hsw : st.sawStartat = true) :
    st'.sawStartat = true := by
  cases f <;> simp only [applyFlag] at h
  case h values =>
    cases hr : resolveLoop H A st.ns.hosts values with
    | error e => simp [hr, Bind.bind, Except.bind] at h
    | ok hs =>
      simp only [hr, Bind.bind, Except.bind, pure, Except.pure, Except.ok.injEq] at h
      subst h
      exact hsw
  case shuffle =>
    rw [hsw] at h
    simp at h
  case startat value =>
    split at h
    · cases h
    · split at h
      · simp only [pure, Except.pure, Except.ok.injEq] at h
        subst h
        rfl
      · cases h
  all_goals first
  | (simp only [Except.ok.injEq, pure, Except.pure] at h; subst h; exact hsw)
  | (split at h <;> simp_all [pure, Except.pure] <;> (try subst h) <;> simp_all)

theorem applyFlag_startat_sets (H : List String) (A : List (String × List String))
    (st : ParseState) (v : Option String) (st' : ParseState)
    (h : applyFlag H A st (.startat v) = .ok st') : st'.sawStartat = true := by
  simp only [applyFlag] at h
  split at h
  · cases h
  · split at h
    · simp only [pure, Except.pure, Except.ok.injEq] at h
      subst h
      rfl
    · cases h

theorem applyFlag_shuffle_sets (H : List String) (A : List (String × List String))
    (st : ParseState) (st' : ParseState)
    (h : applyFlag H A st .shuffle = .ok st') : st'.sawShuffle = true := by
  simp only [applyFlag] at h
  split at h
  · cases h
  · simp only [pure, Except.pure, Except.ok.injEq] at h
    subst h
    rfl

theorem fold_fails_of_sawShuffle (H : List String) (A : List (String × List String)) :
    ∀ (fs : List Flag) (st : ParseState), st.sawShuffle = true →
      (∃ v, Flag.startat v ∈ fs) →
      ∀ st', fs.foldlM (applyFlag H A) st ≠ .ok st' := by
  intro fs
  induction fs with
  | nil => intro st _ hmem st'; simp at hmem
  | cons g fs ih =>
    intro st hsw hmem st' hfold
    rw [List.foldlM_cons] at hfold
    cases hg : applyFlag H A st g with
    | error e => rw [hg] at hfold; simp [Bind.bind, Except.bind] at hfold
    | ok st1 =>
      rw [hg] at hfold
      simp only [Bind.bind, Except.bind] at hfold
      obtain ⟨v, hv⟩ := hmem
      rcases List.mem_cons.mp hv with hveq | hvin
      · subst hveq
        simp only [applyFlag, hsw] at hg
        simp at hg
      · exact ih st1 (applyFlag_sawShuffle_mono H A st g st1 hg hsw) ⟨v, hvin⟩ st' hfold

theorem fold_fails_of_sawStartat (H : List String) (A : List (String × List String)) :
    ∀ (fs : List Flag) (st : ParseState), st.sawStartat = true →
      Flag.shuffle ∈ fs →
      ∀ st', fs.foldlM (applyFlag H A) st ≠ .ok st' := by
  intro fs
  induction fs with
  | nil => intro st _ hmem st'; simp at hmem
  | cons g fs ih =>
    intro st hsw hmem st' hfold
    rw [List.foldlM_cons] at hfold
    cases hg : applyFlag H A st g with
    | error e => rw [hg] at hfold; simp [Bind.bind, Except.bind] at hfold
    | ok st1 =>
      rw [hg] at hfold
      simp only [Bind.bind, Except.bind] at hfold
      rcases List.mem_cons.mp hmem with hveq | hvin
      · subst hveq
        simp only [applyFlag, hsw] at hg
        simp at hg
      · exact ih st1 (applyFlag_sawStartat_mono H A st g st1 hg hsw) hvin st' hfold

theorem fold_fails_of_both (H : List String) (A : List (String × List String)) :
    ∀ (fs : List Flag) (st : ParseState), (∃ v, Flag.startat v ∈ fs) →
      Flag.shuffle ∈ fs →
      ∀ st', fs.foldlM (applyFlag H A) st ≠ .ok st' := by
  intro fs
  induction fs with
  | nil => intro st hmem _ st'; simp at hmem
  | cons g fs ih =>
    intro st hstart hshuf st' hfold
    rw [List.foldlM_cons] at hfold
    cases hg : applyFlag H A st g with
    | error e => rw [hg] at hfold; simp [Bind.bind, Except.bind] at hfold
    | ok st1 =>
      rw [hg] at hfold
      simp only [Bind.bind, Except.bind] at hfold
      obtain ⟨v, hv⟩ := hstart
      rcases List.mem_cons.mp hv with hveq | hvin
      · subst hveq
        have hshuf' : Flag.shuffle ∈ fs := by
          rcases List.mem_cons.mp hshuf with h1 | h1
          · cases h1
          · exact h1
        exact fold_fails_of_sawStartat H A fs st1
          (applyFlag_startat_sets H A st v st1 hg) hshuf' st' hfold
      · rcases List.mem_cons.mp hshuf with h1 | h1
        · subst h1
          exact fold_fails_of_sawShuffle H A fs st1
            (applyFlag_shuffle_sets H A st st1 hg) ⟨v, hvin⟩ st' hfold
        · exact ih st1 ⟨v, hvin⟩ h1 st' hfold

/-- Invariant tying the namespace to argparse's seen-actions record: the
`shuffle` field is set only after `--shuffle` was seen, `start_at` only after
`--startat` was seen, and the two group members are never both seen. -/
def GroupInv (st : ParseState) : Prop :=
  (st.ns.shuffle = true → st.sawShuffle = true) ∧
  (st.ns.start_at ≠ none → st.sawStartat = true) ∧
  (st.sawStartat = false ∨ st.sawShuffle = false)

theorem applyFlag_groupInv (H : List String) (A : List (String × List String))
    (st : ParseState) (f : Flag) (st' : ParseState)
    (h : applyFlag H A st f = .ok st') (hinv : GroupInv st) : GroupInv st' := by
  obtain ⟨h1, h2, h3⟩ := hinv
  cases f <;> simp only [applyFlag] at h
  case h values =>
    cases hr : resolveLoop H A st.ns.hosts values with
    | error e => simp [hr, Bind.bind, Except.bind] at h
    | ok hs =>
      simp only [hr, Bind.bind, Except.bind, pure, Except.pure, Except.ok.injEq] at h
      subst h
      exact ⟨h1, h2, h3⟩
  case startat value =>
    split at h
    · cases h
    case isFalse hguard =>
      split at h
      · simp only [pure, Except.pure, Except.ok.injEq] at h
        subst h
        refine ⟨h1, fun _ => rfl, Or.inr ?_⟩
        simpa using hguard
      · cases h
  case shuffle =>
    split at h
    · cases h
    case isFalse hguard =>
      simp only [pure, Except.pure, Except.ok.injEq] at h
      subst h
      refine ⟨fun _ => rfl, ?_, Or.inl ?_⟩
      · intro hne
        exact absurd (h2 hne) (by simpa using hguard)
      · simpa using hguard
  case k value =>
    split at h
    · simp only [pure, Except.pure, Except.ok.injEq] at h
      subst h
      exact ⟨h1, h2, h3⟩
    · cases h
  all_goals
    simp only [Except.ok.injEq, pure, Except.pure] at h
  all_goals
    subst h
  all_goals
    exact ⟨h1, h2, h3⟩

theorem fold_groupInv (H : List String) (A : List (String × List String)) :
    ∀ (fs : List Flag) (st st' : ParseState),
      fs.foldlM (applyFlag H A) st = .ok st' → GroupInv st → GroupInv st' := by
  intro fs
  induction fs with
  | nil => intro st st' h hinv; simp only [List.foldlM_nil, pure, Except.pure,
      Except.ok.injEq] at h; subst h; exact hinv
  | cons g fs ih =>
    intro st st' h hinv
    rw [List.foldlM_cons] at h
    cases hg : applyFlag H A st g with
    | error e => rw [hg] at h; simp [Bind.bind, Except.bind] at h
    | ok st1 =>
      rw [hg] at h
      simp only [Bind.bind, Except.bind] at h
      exact ih st1 st' h (applyFlag_groupInv H A st g st1 hg hinv)

theorem applyFlag_hosts_origin (H : List String) (A : List (String × List String))
    (st : ParseState) (f : Flag) (st' : ParseState)
    (h : applyFlag H A st f = .ok st')
    (hst : ∀ x ∈ st.ns.hosts, x ∈ H ∨ ∃ p ∈ A, x ∈ p.2) :
    ∀ x ∈ st'.ns.hosts, x ∈ H ∨ ∃ p ∈ A, x ∈ p.2 := by
  cases f <;> simp only [applyFlag] at h
  case h values =>
    cases hr : resolveLoop H A st.ns.hosts values with
    | error e => simp [hr, Bind.bind, Except.bind] at h
    | ok hs =>
      simp only [hr, Bind.bind, Except.bind, pure, Except.pure, Except.ok.injEq] at h
      subst h
      exact resolveLoop_origin H A st.ns.hosts values hs hr hst
  case startat value =>
    split at h
    · cases h
    · split at h
      · simp only [pure, Except.pure, Except.ok.injEq] at h
        subst h
        exact hst
      · cases h
  case shuffle =>
    split at h
    · cases h
    · simp only [pure, Except.pure, Except.ok.injEq] at h
      subst h
      exact hst
  case k value =>
    split at h
    · simp only [pure, Except.pure, Except.ok.injEq] at h
      subst h
      exact hst
    · cases h
  all_goals
    simp only [Except.ok.injEq, pure, Except.pure] at h
  all_goals
    subst h
  all_goals
    exact hst

theorem fold_hosts_origin (H : List String) (A : List (String × List String)) :
    ∀ (fs : List Flag) (st st' : ParseState),
      fs.foldlM (applyFlag H A) st = .ok st' →
      (∀ x ∈ st.ns.hosts, x ∈ H ∨ ∃ p ∈ A, x ∈ p.2) →
      ∀ x ∈ st'.ns.hosts, x ∈ H ∨ ∃ p ∈ A, x ∈ p.2 := by
  intro fs
  induction fs with
  | nil => intro st st' h hst; simp only [List.foldlM_nil, pure, Except.pure,
      Except.ok.injEq] at h; subst h; exact hst
  | cons g fs ih =>
    intro st st' h hst
    rw [List.foldlM_cons] at h
    cases hg : applyFlag H A st g with
    | error e => rw [hg] at h; simp [Bind.bind, Except.bind] at h
    | ok st1 =>
      rw [hg] at h
      simp only [Bind.bind, Except.bind] at h
      exact ih st1 st' h (applyFlag_hosts_origin H A st g st1 hg hst)

theorem applyFlag_k_ok (H : List String) (A : List (String × List String))
    (st : ParseState) (v : String) (st' : ParseState)
    (h : applyFlag H A st (.k v) = .ok st') : v = "all" ∨ v = "apps" := by
  simp only [applyFlag] at h
  split at h
  · assumption
  · cases h

theorem fold_k_valid (H : List String) (A : List (String × List String)) :
    ∀ (fs : List Flag) (st st' : ParseState),
      fs.foldlM (applyFlag H A) st = .ok st' →
      ∀ v, Flag.k v ∈ fs → v = "all" ∨ v = "apps" := by
  intro fs
  induction fs with
  | nil => intro st st' _ v hv; simp at hv
  | cons g fs ih =>
    intro st st' h v hv
    rw [List.foldlM_cons] at h
    cases hg : applyFlag H A st g with
    | error e => rw [hg] at h; simp [Bind.bind, Except.bind] at h
    | ok st1 =>
      rw [hg] at h
      simp only [Bind.bind, Except.bind] at h
      rcases List.mem_cons.mp hv with hveq | hvin
      · subst hveq
        exact applyFlag_k_ok H A st v st1 hg
      · exact ih st1 st' h v hvin

theorem applyFlag_startat_none_fails (H : List String)
    (A : List (String × List String)) (st st' : ParseState) :
    applyFlag H A st (.startat none) ≠ .ok st' := by
  simp only [applyFlag]
  split
  · simp
  · simp [optMemHosts]

theorem fold_startat_none_fails (H : List String) (A : List (String × List String)) :
    ∀ (fs : List Flag) (st : ParseState), Flag.startat none ∈ fs →
      ∀ st', fs.foldlM (applyFlag H A) st ≠ .ok st' := by
  intro fs
  induction fs with
  | nil => intro st hmem st'; simp at hmem
  | cons g fs ih =>
    intro st hmem st' hfold
    rw [List.foldlM_cons] at hfold
    cases hg : applyFlag H A st g with
    | error e => rw [hg] at hfold; simp [Bind.bind, Except.bind] at hfold
    | ok st1 =>
      rw [hg] at hfold
      simp only [Bind.bind, Except.bind] at hfold
      rcases List.mem_cons.mp hmem with hveq | hvin
      · subst hveq
        exact applyFlag_startat_none_fails H A st st1 hg
      · exact ih st1 hvin st' hfold

/-- Shape of a successful parse: the fold succeeded, `-h` was present, and
the result is the folded namespace after the quiet post-processing rule. -/
theorem parse_args_ok_elim (H : List String) (A : List (String × List String))
    (fs : List Flag) (ns : PushNamespace) (h : parse_args H A fs = .ok ns) :
    ∃ st, fs.foldlM (applyFlag H A) {} = .ok st ∧ fs.any isHostFlag = true ∧
      ns = (if st.ns.quiet = true then { st.ns with auto_continue := true }
            else st.ns) := by
  unfold parse_args at h
  cases hf : fs.foldlM (applyFlag H A) ({} : ParseState) with
  | error e => rw [hf] at h; simp [Bind.bind, Except.bind] at h
  | ok st =>
    rw [hf] at h
    simp only [Bind.bind, Except.bind] at h
    by_cases hany : fs.any isHostFlag = true
    · rw [if_pos hany] at h
      refine ⟨st, rfl, hany, ?_⟩
      simp only [pure, Except.pure, Except.ok.injEq] at h
      exact h.symm
    · rw [if_neg hany] at h
      cases h

theorem parse_args_error_of_fold (H : List String)
    (A : List (String × List String)) (fs : List Flag) (e : ParseError)
    (h : fs.foldlM (applyFlag H A) {} = .error e) :
    parse_args H A fs = .error e := by
  unfold parse_args
  rw [h]
  rfl

/-! The specification claims. -/

/-- C1, counterexample: `queue.extend` appends the sub-tokens of a
space-containing `-h` token at the BACK of the work queue, not the front, so
`"web1 web2"` followed by `web3` resolves to `web3, web1, web2` while the
separate tokens `web1 web2 web3` resolve in their own order: the combined
token does not keep its position relative to surrounding tokens. -/
theorem c1_counterexample :
    parse_args ["web1", "web2", "web3"] [] [Flag.h ["web1 web2", "web3"]] =
      .ok { hosts := ["web3", "web1", "web2"] } ∧
    parse_args ["web1", "web2", "web3"] [] [Flag.h ["web1", "web2", "web3"]] =
      .ok { hosts := ["web1", "web2", "web3"] } ∧
    (["web3", "web1", "web2"] : List String) ≠ ["web1", "web2", "web3"] := by
  have hsplit : splitHostToken "web1 web2" = ["web1", "web2"] := by decide
  refine ⟨?_, ?_, by decide⟩ <;>
    simp +decide [parse_args, applyFlag, resolveLoop, Bind.bind, Except.bind, pure, Except.pure, hsplit]

/-- C1, amended: a `-h` token with an internal space is split before any host
or alias check and its stripped sub-tokens are re-inserted at the back of the
work queue preserving their relative order; consequently `"web1 web2"` as one
token is equivalent to the two separate tokens `web1 web2` when no tokens
follow it in the queue (in general its hosts come after those of the
remaining tokens). -/
theorem c1_theorem :
    (∀ (H : List String) (A : List (String × List String))
        (acc : List String) (t : String) (q : List String),
        hasSpace t = true →
        resolveLoop H A acc (t :: q) = resolveLoop H A acc (q ++ splitHostToken t)) ∧
    (∀ (H : List String) (A : List (String × List String)),
        parse_args H A [Flag.h ["web1 web2"]] =
          parse_args H A [Flag.h ["web1", "web2"]]) := by
  constructor
  · exact resolveLoop_space
  · intro H A
    have hsplit : splitHostToken "web1 web2" = ["web1", "web2"] := by decide
    have key : resolveLoop H A [] ["web1 web2"] = resolveLoop H A [] ["web1", "web2"] := by
      rw [resolveLoop_space H A [] "web1 web2" [] (by decide), hsplit]
      rfl
    unfold parse_args
    simp only [List.foldlM_cons, List.foldlM_nil, applyFlag]
    rw [show resolveLoop H A ({} : ParseState).ns.hosts ["web1 web2"] =
      resolveLoop H A [] ["web1", "web2"] from key]
    simp [isHostFlag]

/-- C1, witness for the amended theorem at a concrete input: the space branch
of the loop re-queues the stripped pieces of `"web1 web2"` at the back. -/
theorem c1_witness :
    resolveLoop ["web1", "web2", "web3"] [] [] ("web1 web2" :: ["web3"]) =
      resolveLoop ["web1", "web2", "web3"] [] [] (["web3"] ++ splitHostToken "web1 web2") :=
  c1_theorem.1 ["web1", "web2", "web3"] [] [] "web1 web2" ["web3"] (by decide)

/-- C2, counterexample: alias contents are appended to `hosts` without being
checked against the known-host set, so an alias mapping to the unknown name
`ghost` puts `ghost` into `hosts` even though it is not a known host. -/
theorem c2_counterexample :
    parse_args ["web1"] [("grp", ["ghost"])] [Flag.h ["grp"]] =
      .ok { hosts := ["ghost"] } ∧
    "ghost" ∉ ["web1"] :=
  ⟨by simp +decide [parse_args, applyFlag, resolveLoop, Bind.bind, Except.bind, pure, Except.pure, lookupAlias], by decide⟩

/-- C2, amended: every entry of `hosts` in a successful parse is a member of
the known-host set or an element of some alias's expansion list — direct
tokens are validated, alias expansions are appended unvalidated. -/
theorem c2_theorem : ∀ (H : List String) (A : List (String × List String))
    (fs : List Flag) (ns : PushNamespace), parse_args H A fs = .ok ns →
    ∀ x ∈ ns.hosts, x ∈ H ∨ ∃ p ∈ A, x ∈ p.2 := by
  intro H A fs ns h x hx
  obtain ⟨st, hfold, _, hns⟩ := parse_args_ok_elim H A fs ns h
  have hosts_eq : ns.hosts = st.ns.hosts := by
    rw [hns]; split <;> rfl
  rw [hosts_eq] at hx
  refine fold_hosts_origin H A fs {} st hfold ?_ x hx
  intro y hy
  simp at hy

/-- C2, witness for the amended theorem at a concrete input. -/
theorem c2_witness :
    "ghost" ∈ ["web1"] ∨ ∃ p ∈ [("grp", ["ghost"])], "ghost" ∈ p.2 :=
  c2_theorem ["web1"] [("grp", ["ghost"])] [Flag.h ["grp"]] { hosts := ["ghost"] }
    (by simp +decide [parse_args, applyFlag, resolveLoop, Bind.bind, Except.bind, pure, Except.pure, lookupAlias]) "ghost"
    (by decide)

/-- C3, counterexample: a known host whose name contains a space is split
before the host check, so a token list whose every token is a known host can
still fail to parse: with known hosts `{"a b"}`, the single known-host token
`"a b"` is split into `a` and `b` and parsing fails. -/
theorem c3_counterexample :
    parse_args ["a b"] [] [Flag.h ["a b"]] = .error (.unknownHostOrAlias "a") ∧
    "a b" ∈ ["a b"] := by
  have hsplit : splitHostToken "a b" = ["a", "b"] := by decide
  refine ⟨?_, by decide⟩
  simp +decide [parse_args, applyFlag, resolveLoop, Bind.bind, Except.bind,
    pure, Except.pure, lookupAlias, hsplit]

/-- C3, amended: for every token list in which every token is a known host
identifier containing no space character, parsing `-h` with those tokens
succeeds and `hosts` equals the token list, in order, with no additions,
removals or deduplication. -/
theorem c3_theorem : ∀ (H : List String) (A : List (String × List String))
    (ts : List String), (∀ t ∈ ts, t ∈ H ∧ hasSpace t = false) →
    ∃ ns, parse_args H A [Flag.h ts] = .ok ns ∧ ns.hosts = ts := by
  intro H A ts hts
  have hres : resolveLoop H A [] ts = .ok ts := by
    rw [resolveLoop_known H A ts [] hts]
    rfl
  refine ⟨{ hosts := ts }, ?_, rfl⟩
  unfold parse_args
  simp only [List.foldlM_cons, List.foldlM_nil, applyFlag]
  rw [show resolveLoop H A ({} : ParseState).ns.hosts ts = .ok ts from hres]
  simp [Bind.bind, Except.bind, pure, Except.pure, isHostFlag]

/-- C3, witness for the amended theorem at a concrete input. -/
theorem c3_witness :
    ∃ ns, parse_args ["web1", "web2"] [] [Flag.h ["web1", "web2"]] = .ok ns ∧
      ns.hosts = ["web1", "web2"] :=
  c3_theorem ["web1", "web2"] [] ["web1", "web2"] (by decide)

/-- C4, counterexample: `-h` is mandatory, but an alias may expand to zero
hosts, and a command line whose only `-h` token names such an alias parses
successfully with an EMPTY hosts list. -/
theorem c4_counterexample :
    parse_args ["web1"] [("empty", [])] [Flag.h ["empty"]] =
      .ok { hosts := ([] : List String) } := by
  simp +decide [parse_args, applyFlag, resolveLoop, Bind.bind, Except.bind, pure, Except.pure, lookupAlias]

/-- C4, amended: every successful parse saw a `-h` flag (the argument is
mandatory), but `hosts` need not be non-empty: a token resolving to an alias
that expands to zero hosts contributes nothing, and if every token does so
the resulting hosts list is empty. -/
theorem c4_theorem :
    (∀ (H : List String) (A : List (String × List String)) (fs : List Flag)
        (ns : PushNamespace), parse_args H A fs = .ok ns →
        ∃ vs, Flag.h vs ∈ fs) ∧
    parse_args ["web1"] [("empty", [])] [Flag.h ["empty"]] =
      .ok { hosts := ([] : List String) } := by
  constructor
  · intro H A fs ns h
    obtain ⟨st, _, hany, _⟩ := parse_args_ok_elim H A fs ns h
    obtain ⟨f, hf, hhf⟩ := List.any_eq_true.mp hany
    cases f
    case h values => exact ⟨values, hf⟩
    all_goals simp [isHostFlag] at hhf
  · simp +decide [parse_args, applyFlag, resolveLoop, Bind.bind, Except.bind, pure, Except.pure, lookupAlias]

/-- C5: the `-r` transform appends `restart-` + value exactly when the value
is `all` or `apps` and the value unchanged otherwise; `-r all` (with the
mandatory `-h`) yields `deployCommands == ["restart-all"]` and `-r myscript`
yields `["myscript"]`. -/
theorem c5_theorem :
    (∀ (cmds : List String) (v : String), (v = "all" ∨ v = "apps") →
        deployCommandCall cmds v = cmds ++ ["restart-" ++ v]) ∧
    (∀ (cmds : List String) (v : String), v ≠ "all" → v ≠ "apps" →
        deployCommandCall cmds v = cmds ++ [v]) ∧
    parse_args ["w1"] [] [Flag.h ["w1"], Flag.r "all"] =
      .ok { hosts := ["w1"], deploy_commands := ["restart-all"] } ∧
    parse_args ["w1"] [] [Flag.h ["w1"], Flag.r "myscript"] =
      .ok { hosts := ["w1"], deploy_commands := ["myscript"] } := by
  refine ⟨?_, ?_, ?_, ?_⟩
  · intro cmds v hv
    simp only [deployCommandCall]
    rw [if_pos hv]
  · intro cmds v h1 h2
    simp only [deployCommandCall]
    rw [if_neg (by rintro (h | h) <;> [exact h1 h; exact h2 h])]
    rfl
  · simp +decide [parse_args, applyFlag, resolveLoop, Bind.bind, Except.bind, pure, Except.pure, deployCommandCall]
  · simp +decide [parse_args, applyFlag, resolveLoop, Bind.bind, Except.bind, pure, Except.pure, deployCommandCall]

/-- C5, witness for the transform clauses at concrete inputs. -/
theorem c5_witness :
    deployCommandCall [] "all" = [] ++ ["restart-" ++ "all"] ∧
    deployCommandCall [] "myscript" = [] ++ ["myscript"] :=
  ⟨c5_theorem.1 [] "all" (Or.inl rfl),
   c5_theorem.2.1 [] "myscript" (by decide) (by decide)⟩

/-- C6: a `-k` action only succeeds on the enumerated values `all`/`apps`
and then appends `kill-` + value; in a successful parse every `-k` value was
one of the enumerated values; `-k all` yields `["kill-all"]` and `-k web`
fails with the invalid-choice error before any transform runs. -/
theorem c6_theorem :
    (∀ (H : List String) (A : List (String × List String))
        (st st' : ParseState) (v : String),
        applyFlag H A st (Flag.k v) = .ok st' →
        (v = "all" ∨ v = "apps") ∧
        st'.ns.deploy_commands = st.ns.deploy_commands ++ ["kill-" ++ v]) ∧
    (∀ (H : List String) (A : List (String × List String)) (fs : List Flag)
        (ns : PushNamespace), parse_args H A fs = .ok ns →
        ∀ v, Flag.k v ∈ fs → v = "all" ∨ v = "apps") ∧
    parse_args ["w1"] [] [Flag.h ["w1"], Flag.k "all"] =
      .ok { hosts := ["w1"], deploy_commands := ["kill-all"] } ∧
    parse_args ["w1"] [] [Flag.h ["w1"], Flag.k "web"] =
      .error (.invalidChoice "web") := by
  refine ⟨?_, ?_, ?_, ?_⟩
  · intro H A st st' v h
    have hv := applyFlag_k_ok H A st v st' h
    refine ⟨hv, ?_⟩
    simp only [applyFlag] at h
    rw [if_pos hv] at h
    simp only [pure, Except.pure, Except.ok.injEq] at h
    subst h
    rfl
  · intro H A fs ns h v hv
    obtain ⟨st, hfold, _, _⟩ := parse_args_ok_elim H A fs ns h
    exact fold_k_valid H A fs {} st hfold v hv
  · simp +decide [parse_args, applyFlag, resolveLoop, Bind.bind, Except.bind, pure, Except.pure, killCommandCall]
  · simp +decide [parse_args, applyFlag, resolveLoop, Bind.bind, Except.bind, pure, Except.pure]

/-- C7: a command line supplying both `--startat` (with or without an
argument) and `--shuffle` fails to parse; in every successful parse
`start_at` and `shuffle` are never both set; on the canonical command line
the failure is the mutually-exclusive-conflict error. -/
theorem c7_theorem :
    (∀ (H : List String) (A : List (String × List String)) (fs : List Flag),
        (∃ v, Flag.startat v ∈ fs) → Flag.shuffle ∈ fs →
        ∃ e, parse_args H A fs = .error e) ∧
    (∀ (H : List String) (A : List (String × List String)) (fs : List Flag)
        (ns : PushNamespace), parse_args H A fs = .ok ns →
        ns.start_at = none ∨ ns.shuffle = false) ∧
    parse_args ["host1"] []
        [Flag.h ["host1"], Flag.startat (some "host1"), Flag.shuffle] =
      .error .mutuallyExclusive := by
  refine ⟨?_, ?_, ?_⟩
  · intro H A fs hstart hshuf
    cases hp : parse_args H A fs with
    | error e => exact ⟨e, rfl⟩
    | ok ns =>
      exfalso
      obtain ⟨st, hfold, _, _⟩ := parse_args_ok_elim H A fs ns hp
      exact fold_fails_of_both H A fs {} hstart hshuf st hfold
  · intro H A fs ns h
    obtain ⟨st, hfold, _, hns⟩ := parse_args_ok_elim H A fs ns h
    have hstart : ns.start_at = st.ns.start_at := by rw [hns]; split <;> rfl
    have hshuf : ns.shuffle = st.ns.shuffle := by rw [hns]; split <;> rfl
    obtain ⟨g1, g2, g3⟩ := fold_groupInv H A fs {} st hfold (by simp [GroupInv])
    rw [hstart, hshuf]
    rcases g3 with hsa | hsw
    · left
      by_contra hne
      rw [g2 hne] at hsa
      cases hsa
    · right
      by_contra hne
      rw [g1 (by simpa using hne)] at hsw
      cases hsw
  · simp +decide [parse_args, applyFlag, resolveLoop, Bind.bind, Except.bind, pure, Except.pure, optMemHosts]

/-- C8: the post-processing rule `if args.quiet: args.auto_continue = True`
makes every successful parse with the quiet flag set return
`auto_continue = true`, whether or not `--no-input` was supplied. -/
theorem c8_theorem : ∀ (H : List String) (A : List (String × List String))
    (fs : List Flag) (ns : PushNamespace), parse_args H A fs = .ok ns →
    ns.quiet = true → ns.auto_continue = true := by
  intro H A fs ns h hq
  obtain ⟨st, _, _, hns⟩ := parse_args_ok_elim H A fs ns h
  by_cases hqq : st.ns.quiet = true
  · rw [hns, if_pos hqq]
  · rw [hns, if_neg hqq] at hq
    exact absurd hq hqq

/-- C8, witness: `-q` with no `--no-input` yields `auto_continue = true`. -/
theorem c8_witness :
    ({ hosts := ["w1"], quiet := true, auto_continue := true } :
      PushNamespace).auto_continue = true :=
  c8_theorem ["w1"] [] [Flag.h ["w1"], Flag.q]
    { hosts := ["w1"], quiet := true, auto_continue := true }
    (by simp +decide [parse_args, applyFlag, resolveLoop, Bind.bind, Except.bind, pure, Except.pure]) rfl

/-- C9: whenever the `-h` part of the command line resolves, `-pc` alone
produces `fetches = {public, private}` and `-ppu -ppr` alone produces the
very same set: the shortcut flag whose constant is a list adds every element
of the list. -/
theorem c9_theorem : ∀ (H : List String) (A : List (String × List String))
    (ts hs : List String), resolveLoop H A [] ts = .ok hs →
    parse_args H A [Flag.h ts, Flag.pc] =
      .ok { hosts := hs, fetches := {"public", "private"} } ∧
    parse_args H A [Flag.h ts, Flag.ppu, Flag.ppr] =
      .ok { hosts := hs, fetches := {"public", "private"} } := by
  intro H A ts hs hr
  constructor
  · unfold parse_args
    simp only [List.foldlM_cons, List.foldlM_nil, applyFlag]
    rw [show resolveLoop H A ({} : ParseState).ns.hosts ts = .ok hs from hr]
    simp [Bind.bind, Except.bind, pure, Except.pure, isHostFlag, setAddConst]
    exact Finset.pair_comm "private" "public"
  · unfold parse_args
    simp only [List.foldlM_cons, List.foldlM_nil, applyFlag]
    rw [show resolveLoop H A ({} : ParseState).ns.hosts ts = .ok hs from hr]
    simp [Bind.bind, Except.bind, pure, Except.pure, isHostFlag, setAddConst]
    exact Finset.pair_comm "private" "public"

/-- C9, witness at a concrete input: `-pc` and `-ppu -ppr` give the same
`fetches` set. -/
theorem c9_witness :
    parse_args ["w1"] [] [Flag.h ["w1"], Flag.pc] =
      .ok { hosts := ["w1"], fetches := {"public", "private"} } ∧
    parse_args ["w1"] [] [Flag.h ["w1"], Flag.ppu, Flag.ppr] =
      .ok { hosts := ["w1"], fetches := {"public", "private"} } :=
  c9_theorem ["w1"] [] ["w1"] ["w1"] (by simp +decide [resolveLoop])

/-- C10: `--startat` with no argument stores Python `None`, which is a member
of no known-host list, so with any `Flag.startat none` occurrence the parse
never succeeds; on the canonical command line it fails with the unknown-host
error for the stored `None`. -/
theorem c10_theorem :
    (∀ (H : List String) (A : List (String × List String)) (fs : List Flag)
        (ns : PushNamespace), Flag.startat none ∈ fs →
        parse_args H A fs ≠ .ok ns) ∧
    parse_args ["w1"] [] [Flag.h ["w1"], Flag.startat none] =
      .error (.unknownHost none) := by
  constructor
  · intro H A fs ns hmem h
    obtain ⟨st, hfold, _, _⟩ := parse_args_ok_elim H A fs ns h
    exact fold_startat_none_fails H A fs {} hmem st hfold
  · simp +decide [parse_args, applyFlag, resolveLoop, Bind.bind, Except.bind, pure, Except.pure, optMemHosts]

end Push
